import Mathlib

/-!
Verification development for the ads utility library
(source3/libads/ads_struct.c): the PathCodec string transforms
(ads_build_path, ads_build_dn, ads_build_domain) and the
ConnectionContext lifecycle (ads_init, ads_set_sasl_wrap_flags,
ads_destroy).  C strings are modelled as lists of characters; a NULL
pointer is modelled as the value none of an Option type.
-/

/-- A C string, modelled as its list of characters (no NUL terminator). -/
abbrev CStr := List Char

/-- Membership test mirroring strchr(sep, c) != NULL in ads_build_path. -/
def sepMatch (sep : CStr) (c : Char) : Bool := decide (c ∈ sep)

/-- Tokenisation as performed by repeated strtok_r(r, sep, ...): split at
every separator character and keep only the non-empty pieces. -/
def tokenize (sep s : CStr) : List CStr :=
  (s.splitOnP (sepMatch sep)).filter (fun t => !t.isEmpty)

/-- Loop body of ads_build_path for the second and later tokens: the C
code calls asprintf with "%s%s,%s" (prepend) when reverse is set and
with "%s,%s%s" (append) otherwise. -/
def path_step (field : CStr) (reverse : Bool) (acc tok : CStr) : CStr :=
  if reverse then field ++ tok ++ [','] ++ acc else acc ++ [','] ++ field ++ tok

/-- Embedding of ads_build_path from source3/libads/ads_struct.c.
The input realm is an optional string (none models a NULL pointer, as
after SMB_STRDUP of NULL); sep is the separator set, field the literal
prepended to each token, reverse the concatenation order flag.  The
capacity len and the two strlcpy/strlcat truncation checks of the C
code are modelled exactly; a truncation branch returns none just as the
C code returns NULL.  Allocation always succeeds in the model. -/
def ads_build_path (realm : Option CStr) (sep field : CStr) (reverse : Bool) :
    Option CStr :=
  match realm with
  | none => none
  | some r =>
    if r = [] then some r
    else
      let numbits := (r.filter (sepMatch sep)).length
      let len := (numbits + 1) * (field.length + 1) + r.length + 1
      if field.length ≥ len then none
      else
        match tokenize sep r with
        | [] => some field
        | t :: ts =>
          if field.length + t.length ≥ len then none
          else
            some (ts.foldl (path_step field reverse) (field ++ t))

/-- Embedding of ads_build_dn: ads_build_path with separator ".",
field literal "dc=" and reverse = 0. -/
def ads_build_dn (realm : Option CStr) : Option CStr :=
  ads_build_path realm (".".toList) ("dc=".toList) false

/-- Modelled from the spec: the samba utility all_string_sub (its C
definition is outside this fragment) textually replaces, left to right,
every occurrence of pat by ins, scanning on past each replacement; an
empty pattern is left untouched. -/
def all_string_sub (pat ins : CStr) : CStr → CStr
  | [] => []
  | c :: cs =>
    if pat ≠ [] ∧ pat <+: (c :: cs)
    then ins ++ all_string_sub pat ins (cs.drop (pat.length - 1))
    else c :: all_string_sub pat ins cs
termination_by s => s.length
decreasing_by
  · simp only [List.length_drop, List.length_cons]
    omega
  · simp only [List.length_cons]
    omega

/-- Modelled from the spec: the samba utility strlower_m (its C
definition is outside this fragment) lower-cases the whole string in
place; on plain latin text it lower-cases each character. -/
def strlower_m (s : CStr) : CStr := s.map Char.toLower

/-- Embedding of ads_build_domain from source3/libads/ads_struct.c:
duplicate the DN, lower-case it, strip every "dc=" occurrence, then
turn every comma into a period.  In the model duplication and
lower-casing always succeed, so only a NULL input yields NULL. -/
def ads_build_domain (dn : Option CStr) : Option CStr :=
  match dn with
  | none => none
  | some s =>
    some (all_string_sub (",".toList) (".".toList)
      (all_string_sub ("dc=".toList) [] (strlower_m s)))

/-! ### The connection context (ADS_STRUCT) and its lifecycle -/

/-- Server identity group of ADS_STRUCT. -/
structure ADSServer where
  realm : Option CStr
  workgroup : Option CStr
  ldap_server : Option CStr
deriving DecidableEq

/-- Authentication group of ADS_STRUCT; flags holds the C unsigned
wrap-flag bitset as a natural number. -/
structure ADSAuth where
  flags : Nat
  realm : Option CStr
  password : Option CStr
  user_name : Option CStr
  kdc_server : Option CStr
  ccache_name : Option CStr
deriving DecidableEq

/-- Configuration group of ADS_STRUCT. -/
structure ADSConfig where
  ldap_page_size : Int
  realm : Option CStr
  bind_path : Option CStr
  ldap_server_name : Option CStr
  server_site_name : Option CStr
  client_site_name : Option CStr
  schema_path : Option CStr
  config_path : Option CStr
deriving DecidableEq

/-- The ADS_STRUCT connection context, restricted to the fields this
fragment touches. -/
structure ADS_STRUCT where
  server : ADSServer
  auth : ADSAuth
  config : ADSConfig
  is_mine : Bool
deriving DecidableEq

/-- The all-zero ADSServer, as left by ZERO_STRUCTP. -/
def zeroServer : ADSServer :=
  { realm := none, workgroup := none, ldap_server := none }

/-- The all-zero ADSAuth, as left by ZERO_STRUCTP. -/
def zeroAuth : ADSAuth :=
  { flags := 0, realm := none, password := none, user_name := none,
    kdc_server := none, ccache_name := none }

/-- The all-zero ADSConfig, as left by ZERO_STRUCTP. -/
def zeroConfig : ADSConfig :=
  { ldap_page_size := 0, realm := none, bind_path := none,
    ldap_server_name := none, server_site_name := none,
    client_site_name := none, schema_path := none, config_path := none }

/-- The all-zero ADS_STRUCT, as left by ZERO_STRUCTP. -/
def zeroADS : ADS_STRUCT :=
  { server := zeroServer, auth := zeroAuth, config := zeroConfig,
    is_mine := false }

/-- Modelled from the spec: the require-signing wrap flag bit; its
numeric value comes from the ads header, which is outside this
fragment, so only its being a single bit distinct from the sealing bit
matters here. -/
def ADS_AUTH_SASL_SIGN : Nat := 32

/-- Modelled from the spec: the require-sealing wrap flag bit; see
ADS_AUTH_SASL_SIGN. -/
def ADS_AUTH_SASL_SEAL : Nat := 64

/-- All bits of a 32-bit C unsigned int; xor against it models the C
bitwise complement of a mask. -/
def UINT32_MASK : Nat := 2 ^ 32 - 1

/-- The enum ads_sasl_state_e selecting the SASL wrapping mode. -/
inductive ads_sasl_state_e where
  | ADS_SASL_PLAIN
  | ADS_SASL_SIGN
  | ADS_SASL_SEAL
deriving DecidableEq

/-- Embedding of ads_init from source3/libads/ads_struct.c.  The two
configuration lookups lp_client_ldap_sasl_wrapping and
lp_ldap_page_size are external policy collaborators outside this
fragment; they enter as parameters, the first as an optional value
whose absence models its -1 error return.  Allocation always succeeds
in the model (the C code uses the aborting SMB_XMALLOC_P). -/
def ads_init (realm workgroup ldap_server : Option CStr)
    (sasl_state : ads_sasl_state_e)
    (lp_sasl_wrapping : Option Nat) (lp_page_size : Int) : ADS_STRUCT :=
  let a1 : ADS_STRUCT :=
    { zeroADS with
      server := { realm := realm, workgroup := workgroup,
                  ldap_server := ldap_server },
      is_mine := true }
  let wrap_flags : Nat :=
    match lp_sasl_wrapping with
    | none => 0
    | some w => w
  let wrap_flags2 : Nat :=
    match sasl_state with
    | .ADS_SASL_PLAIN => wrap_flags
    | .ADS_SASL_SIGN => wrap_flags ||| ADS_AUTH_SASL_SIGN
    | .ADS_SASL_SEAL => wrap_flags ||| ADS_AUTH_SASL_SEAL
  { a1 with
    auth := { a1.auth with flags := wrap_flags2 },
    config := { a1.config with ldap_page_size := lp_page_size } }

/-- Embedding of ads_set_sasl_wrap_flags from
source3/libads/ads_struct.c; the pair returned is the C bool result
together with the context after the call. -/
def ads_set_sasl_wrap_flags (ads : Option ADS_STRUCT) (flags : Nat) :
    Bool × Option ADS_STRUCT :=
  match ads with
  | none => (false, none)
  | some a =>
    let other_flags :=
      a.auth.flags &&& (UINT32_MASK ^^^ (ADS_AUTH_SASL_SIGN ||| ADS_AUTH_SASL_SEAL))
    (true, some { a with auth := { a.auth with flags := flags ||| other_flags } })

/-- Embedding of ads_destroy from source3/libads/ads_struct.c at the
level of the observable pointer structure: the outer option models the
ADS_STRUCT ** argument being NULL, the inner option the pointed-to
ADS_STRUCT *; the result is what the caller reference designates after
the call.  Freeing every string field and ZERO_STRUCTP leave the
pointee equal to the zeroed structure; SAFE_FREE on the pointer itself
both frees and nulls it, and runs only when is_mine was set at entry. -/
def ads_destroy (ads : Option (Option ADS_STRUCT)) : Option (Option ADS_STRUCT) :=
  match ads with
  | none => none
  | some none => some none
  | some (some a) =>
    let is_mine := a.is_mine
    if is_mine then some none else some (some zeroADS)

/-! ### The realm character class of the round-trip claim -/

/-- One character of the regex class [a-z0-9], over the ASCII code
points 97 to 122 and 48 to 57. -/
def isRealmChar (c : Char) : Bool :=
  (97 ≤ c.toNat && c.toNat ≤ 122) || (48 ≤ c.toNat && c.toNat ≤ 57)

/-- Decidable matcher for the realm regex [a-z0-9]+(\.[a-z0-9]+)*,
phrased by splitting: a string matches exactly when splitting it at
every dot yields only non-empty pieces of class characters (the split
of the empty string is one empty piece, so the empty string never
matches). -/
def matchesRealm (r : CStr) : Bool :=
  (r.splitOn '.').all (fun t => !t.isEmpty && t.all isRealmChar)

/-! ### Helper lemmas about tokenisation and joining -/

lemma length_le_of_mem_splitOnP (p : Char → Bool) :
    ∀ (s t : CStr), t ∈ s.splitOnP p → t.length ≤ s.length := by
  intro s
  induction s with
  | nil =>
    intro t ht
    simp only [List.splitOnP_nil, List.mem_singleton] at ht
    simp [ht]
  | cons c cs ih =>
    intro t ht
    rw [List.splitOnP_cons] at ht
    by_cases hc : p c
    · rw [if_pos hc] at ht
      rcases List.mem_cons.mp ht with h1 | h2
      · simp [h1]
      · exact Nat.le_succ_of_le (ih t h2)
    · rw [if_neg hc] at ht
      rcases hsp : cs.splitOnP p with _ | ⟨h0, tl⟩
      · exact absurd hsp (List.splitOnP_ne_nil p cs)
      · rw [hsp, List.modifyHead_cons] at ht
        rcases List.mem_cons.mp ht with h1 | h2
        · subst h1
          have hm : h0 ∈ cs.splitOnP p := by
            rw [hsp]; exact List.mem_cons_self _ _
          simpa using Nat.succ_le_succ (ih h0 hm)
        · have hm : t ∈ cs.splitOnP p := by
            rw [hsp]; exact List.mem_cons_of_mem _ h2
          exact Nat.le_succ_of_le (ih t hm)

lemma mem_splitOnP_eq_nil_of_all (p : Char → Bool) :
    ∀ (s : CStr), (∀ c ∈ s, p c = true) → ∀ t ∈ s.splitOnP p, t = [] := by
  intro s
  induction s with
  | nil =>
    intro _ t ht
    simpa using ht
  | cons c cs ih =>
    intro h t ht
    rw [List.splitOnP_cons, if_pos (h c (List.mem_cons_self _ _))] at ht
    rcases List.mem_cons.mp ht with h1 | h2
    · exact h1
    · exact ih (fun d hd => h d (List.mem_cons_of_mem _ hd)) t h2

lemma tokenize_eq_nil_of_all_sep (sep r : CStr)
    (h : ∀ c ∈ r, sepMatch sep c = true) : tokenize sep r = [] := by
  unfold tokenize
  rw [List.filter_eq_nil_iff]
  intro t ht
  have := mem_splitOnP_eq_nil_of_all (sepMatch sep) r h t ht
  simp [this]

lemma first_check_lt (sep field r : CStr) :
    field.length <
      ((r.filter (sepMatch sep)).length + 1) * (field.length + 1) + r.length + 1 := by
  have h1 : field.length + 1 ≤
      ((r.filter (sepMatch sep)).length + 1) * (field.length + 1) :=
    Nat.le_mul_of_pos_left _ (Nat.succ_pos _)
  omega

lemma tok_length_le (sep r t : CStr) (ts : List CStr)
    (htok : tokenize sep r = t :: ts) : t.length ≤ r.length := by
  have hmem : t ∈ tokenize sep r := by
    rw [htok]; exact List.mem_cons_self _ _
  have hmem2 : t ∈ r.splitOnP (sepMatch sep) := (List.mem_filter.mp hmem).1
  exact length_le_of_mem_splitOnP _ r t hmem2

lemma second_check_lt (sep field r t : CStr) (ts : List CStr)
    (htok : tokenize sep r = t :: ts) :
    field.length + t.length <
      ((r.filter (sepMatch sep)).length + 1) * (field.length + 1) + r.length + 1 := by
  have h1 : field.length + 1 ≤
      ((r.filter (sepMatch sep)).length + 1) * (field.length + 1) :=
    Nat.le_mul_of_pos_left _ (Nat.succ_pos _)
  have h2 := tok_length_le sep r t ts htok
  omega

lemma ads_build_path_tok_nil (sep field r : CStr) (reverse : Bool)
    (hr : r ≠ []) (htok : tokenize sep r = []) :
    ads_build_path (some r) sep field reverse = some field := by
  have h1 := first_check_lt sep field r
  simp only [ads_build_path, if_neg hr, htok]
  rw [if_neg (by omega)]

lemma ads_build_path_tok_cons (sep field r t : CStr) (ts : List CStr) (reverse : Bool)
    (hr : r ≠ []) (htok : tokenize sep r = t :: ts) :
    ads_build_path (some r) sep field reverse =
      some (ts.foldl (path_step field reverse) (field ++ t)) := by
  have h1 := first_check_lt sep field r
  have h2 := second_check_lt sep field r t ts htok
  simp only [ads_build_path, if_neg hr, htok]
  rw [if_neg (by omega), if_neg (by omega)]

lemma intercalate_singleton_local (s x : CStr) :
    List.intercalate s [x] = x := by
  simp [List.intercalate, List.intersperse]

lemma intercalate_cons2 (s x y : CStr) (ys : List CStr) :
    List.intercalate s (x :: y :: ys) = x ++ s ++ List.intercalate s (y :: ys) := by
  simp [List.intercalate, List.intersperse_cons_cons, List.append_assoc]

lemma inter_flat (x : CStr) (ls : List CStr) :
    List.intercalate [','] (x :: ls) = x ++ (ls.map (fun l => ',' :: l)).flatten := by
  induction ls generalizing x with
  | nil => simp [intercalate_singleton_local]
  | cons y ys ih =>
    rw [intercalate_cons2, ih y]
    simp [List.append_assoc]

lemma foldl_app_eq (field : CStr) :
    ∀ (ts : List CStr) (acc : CStr),
      ts.foldl (fun acc tok => acc ++ [','] ++ field ++ tok) acc
        = acc ++ (ts.map (fun tok => ',' :: (field ++ tok))).flatten := by
  intro ts
  induction ts with
  | nil => intro acc; simp
  | cons t ts ih =>
    intro acc
    rw [List.foldl_cons, ih]
    simp [List.append_assoc]

lemma build_join_eq (field t : CStr) (ts : List CStr) :
    ts.foldl (fun acc tok => acc ++ [','] ++ field ++ tok) (field ++ t)
      = List.intercalate [','] ((t :: ts).map (fun tok => field ++ tok)) := by
  rw [foldl_app_eq, List.map_cons, inter_flat, List.map_map]
  rfl

lemma foldl_rev_eq (field : CStr) :
    ∀ (ts : List CStr) (acc : CStr),
      ts.foldl (fun acc tok => field ++ tok ++ [','] ++ acc) acc
        = (ts.reverse.map (fun tok => field ++ tok ++ [','])).flatten ++ acc := by
  intro ts
  induction ts with
  | nil => intro acc; simp
  | cons t ts ih =>
    intro acc
    rw [List.foldl_cons, ih]
    simp [List.append_assoc]

lemma inter_flat_rev (field p : CStr) (qs : List CStr) :
    List.intercalate [','] ((qs ++ [p]).map (fun tok => field ++ tok))
      = (qs.map (fun tok => field ++ tok ++ [','])).flatten ++ (field ++ p) := by
  induction qs with
  | nil => simp [intercalate_singleton_local]
  | cons q qs ih =>
    have hne : (qs ++ [p]).map (fun tok => field ++ tok) ≠ [] := by
      simp
    rcases hm : (qs ++ [p]).map (fun tok => field ++ tok) with _ | ⟨z, zs⟩
    · exact absurd hm hne
    · rw [List.cons_append, List.map_cons, hm, intercalate_cons2, ← hm, ih]
      simp [List.append_assoc]

lemma build_join_rev_eq (field t : CStr) (ts : List CStr) :
    ts.foldl (fun acc tok => field ++ tok ++ [','] ++ acc) (field ++ t)
      = List.intercalate [','] (((t :: ts).reverse).map (fun tok => field ++ tok)) := by
  rw [foldl_rev_eq, List.reverse_cons, inter_flat_rev]

lemma path_step_false (field : CStr) :
    path_step field false = fun acc tok => acc ++ [','] ++ field ++ tok := by
  funext acc tok
  simp [path_step]

lemma path_step_true (field : CStr) :
    path_step field true = fun acc tok => field ++ tok ++ [','] ++ acc := by
  funext acc tok
  simp [path_step]

lemma tokenize_nil (sep : CStr) : tokenize sep [] = [] := by
  simp [tokenize]

lemma sum_splitOnP_le (p : Char → Bool) :
    ∀ (s : CStr), ((s.splitOnP p).map List.length).sum ≤ s.length := by
  intro s
  induction s with
  | nil => simp
  | cons c cs ih =>
    rw [List.splitOnP_cons]
    by_cases hc : p c
    · rw [if_pos hc]
      simpa using Nat.le_succ_of_le ih
    · rw [if_neg hc]
      rcases hsp : cs.splitOnP p with _ | ⟨h0, tl⟩
      · exact absurd hsp (List.splitOnP_ne_nil p cs)
      · rw [List.modifyHead_cons]
        rw [hsp] at ih
        simp only [List.map_cons, List.sum_cons, List.length_cons] at ih ⊢
        omega

lemma splitOnP_length_le (p : Char → Bool) :
    ∀ (s : CStr), (s.splitOnP p).length ≤ (s.filter p).length + 1 := by
  intro s
  induction s with
  | nil => simp
  | cons c cs ih =>
    rw [List.splitOnP_cons, List.filter_cons]
    by_cases hc : p c
    · rw [if_pos hc, if_pos hc]
      simpa using Nat.succ_le_succ ih
    · rw [if_neg hc, if_neg hc]
      rcases hsp : cs.splitOnP p with _ | ⟨h0, tl⟩
      · exact absurd hsp (List.splitOnP_ne_nil p cs)
      · rw [List.modifyHead_cons]
        rw [hsp] at ih
        simpa using ih

lemma sum_len_filter_le (q : CStr → Bool) :
    ∀ (ls : List CStr), ((ls.filter q).map List.length).sum ≤ (ls.map List.length).sum := by
  intro ls
  induction ls with
  | nil => simp
  | cons x xs ih =>
    rw [List.filter_cons]
    by_cases hq : q x
    · rw [if_pos hq]
      simp only [List.map_cons, List.sum_cons]
      omega
    · rw [if_neg hq]
      simp only [List.map_cons, List.sum_cons]
      omega

lemma foldl_path_step_length (field : CStr) (reverse : Bool) :
    ∀ (ts : List CStr) (acc : CStr),
      (ts.foldl (path_step field reverse) acc).length
        = acc.length + (ts.map (fun tok => (field.length + 1) + tok.length)).sum := by
  intro ts
  induction ts with
  | nil => intro acc; simp
  | cons t ts ih =>
    intro acc
    rw [List.foldl_cons, ih]
    have hstep : (path_step field reverse acc t).length
        = acc.length + ((field.length + 1) + t.length) := by
      cases reverse <;> simp [path_step] <;> omega
    rw [hstep]
    simp only [List.map_cons, List.sum_cons]
    omega

lemma sum_map_affine (k : Nat) :
    ∀ (ts : List CStr),
      (ts.map (fun tok => k + tok.length)).sum = ts.length * k + (ts.map List.length).sum := by
  intro ts
  induction ts with
  | nil => simp
  | cons t ts ih =>
    simp only [List.map_cons, List.sum_cons, List.length_cons, ih, Nat.succ_mul]
    omega

/-! ### Claims about ads_build_path, ads_build_dn -/

/-- Claim C9: ads_build_path called with a null name returns null and
called with an empty name returns the empty string, in both cases
without signalling an error. -/
theorem claim_C9_empty_or_null_name (sep field : CStr) (reverse : Bool) :
    ads_build_path none sep field reverse = none ∧
    ads_build_path (some []) sep field reverse = some [] := by
  constructor
  · rfl
  · simp [ads_build_path]

/-- Claim C10: for every non-empty name consisting entirely of
separator characters, ads_build_path returns exactly the bare field
literal, not an empty result and not null. -/
theorem claim_C10_all_separators_bare_field (sep field r : CStr) (reverse : Bool)
    (hr : r ≠ []) (hall : ∀ c ∈ r, sepMatch sep c = true) :
    ads_build_path (some r) sep field reverse = some field :=
  ads_build_path_tok_nil sep field r reverse hr (tokenize_eq_nil_of_all_sep sep r hall)

/-- Witness for claim C10 at name "..", separator set ".", field
literal "dc=". -/
theorem claim_C10_witness :
    (("..".toList : CStr) ≠ [] ∧
      ∀ c ∈ ("..".toList : CStr), sepMatch (".".toList) c = true) ∧
    ads_build_path (some ("..".toList)) (".".toList) ("dc=".toList) false
      = some ("dc=".toList) :=
  ⟨⟨by decide, by decide⟩,
    claim_C10_all_separators_bare_field (".".toList) ("dc=".toList) ("..".toList) false
      (by decide) (by decide)⟩

/-- Claim C4 fails as stated: with name ".", separator set "." and
field "dc=", the built path plus its terminator needs four characters
while the stated bound token_count * (len(field) + 1) + len(name) + 1
is only two, because tokenisation of "." yields no tokens at all while
the path is still the bare field literal. -/
theorem claim_C4_counterexample :
    ads_build_path (some (".".toList)) (".".toList) ("dc=".toList) false
        = some ("dc=".toList) ∧
    ¬ ((("dc=".toList : CStr).length + 1 ≤
        (tokenize (".".toList) (".".toList)).length * (("dc=".toList : CStr).length + 1)
          + (".".toList : CStr).length + 1)) := by
  constructor
  · decide
  · decide

/-- Claim C4 (amended): for every non-empty name, ads_build_path
returns a path without ever taking a truncation branch, and the length
of that path plus its terminator never exceeds the capacity the
implementation computes, namely (separator_occurrences + 1) *
(len(field) + 1) + len(name) + 1. -/
theorem claim_C4_capacity_sufficient (sep field r : CStr) (reverse : Bool)
    (hr : r ≠ []) :
    ∃ out, ads_build_path (some r) sep field reverse = some out ∧
      out.length + 1 ≤
        ((r.filter (sepMatch sep)).length + 1) * (field.length + 1) + r.length + 1 := by
  rcases htok : tokenize sep r with _ | ⟨t, ts⟩
  · refine ⟨field, ads_build_path_tok_nil sep field r reverse hr htok, ?_⟩
    have := first_check_lt sep field r
    omega
  · refine ⟨ts.foldl (path_step field reverse) (field ++ t),
      ads_build_path_tok_cons sep field r t ts reverse hr htok, ?_⟩
    rw [foldl_path_step_length, sum_map_affine]
    have hcount : ts.length + 1 ≤ (r.filter (sepMatch sep)).length + 1 := by
      have h1 : (t :: ts).length ≤ (r.splitOnP (sepMatch sep)).length := by
        rw [← htok]
        exact List.length_filter_le _ _
      have h2 := splitOnP_length_le (sepMatch sep) r
      simp only [List.length_cons] at h1
      omega
    have hsum : t.length + (ts.map List.length).sum ≤ r.length := by
      have h1 : ((t :: ts).map List.length).sum
          ≤ ((r.splitOnP (sepMatch sep)).map List.length).sum := by
        rw [← htok]
        exact sum_len_filter_le _ _
      have h2 := sum_splitOnP_le (sepMatch sep) r
      simp only [List.map_cons, List.sum_cons] at h1
      omega
    have hmul : (ts.length + 1) * (field.length + 1)
        ≤ ((r.filter (sepMatch sep)).length + 1) * (field.length + 1) :=
      Nat.mul_le_mul_right _ hcount
    rw [List.length_append]
    linarith [hmul, hsum]

/-- Witness for the amended claim C4 at name "a.b". -/
theorem claim_C4_witness :
    ("a.b".toList : CStr) ≠ [] ∧
    ∃ out, ads_build_path (some ("a.b".toList)) (".".toList) ("dc=".toList) false
        = some out ∧
      out.length + 1 ≤
        ((("a.b".toList : CStr).filter (sepMatch (".".toList))).length + 1)
            * (("dc=".toList : CStr).length + 1) + ("a.b".toList : CStr).length + 1 :=
  ⟨by decide,
    claim_C4_capacity_sufficient (".".toList) ("dc=".toList) ("a.b".toList) false
      (by decide)⟩

/-- Claim C5: ads_build_dn is ads_build_path with separator ".", field
"dc=" and reverse unset, and on any name with at least one token it
joins the tokens in input order, each with the "dc=" literal in front,
separated by commas. -/
theorem claim_C5_build_dn_forward (r t : CStr) (ts : List CStr)
    (htok : tokenize (".".toList) r = t :: ts) :
    (ads_build_dn (some r)
        = ads_build_path (some r) (".".toList) ("dc=".toList) false) ∧
    ads_build_dn (some r)
        = some (List.intercalate [',']
            ((t :: ts).map (fun tok => ("dc=".toList : CStr) ++ tok))) := by
  have hr : r ≠ [] := by
    rintro rfl
    rw [tokenize_nil] at htok
    exact List.noConfusion htok
  refine ⟨rfl, ?_⟩
  rw [ads_build_dn, ads_build_path_tok_cons _ _ _ _ _ _ hr htok, path_step_false,
    build_join_eq]

/-- Witness for claim C5 at realm "example.com": the DN is
"dc=example,dc=com". -/
theorem claim_C5_witness :
    tokenize (".".toList) ("example.com".toList) = ["example".toList, "com".toList] ∧
    ads_build_dn (some ("example.com".toList)) = some ("dc=example,dc=com".toList) := by
  refine ⟨by decide, ?_⟩
  have h := (claim_C5_build_dn_forward ("example.com".toList) ("example".toList)
    [("com".toList)] (by decide)).2
  rw [h]
  decide

/-- Claim C6: with reverse set, ads_build_path prepends each new token,
so the tokens appear in reverse order relative to the input. -/
theorem claim_C6_reverse_order (sep field r t : CStr) (ts : List CStr)
    (htok : tokenize sep r = t :: ts) :
    ads_build_path (some r) sep field true
      = some (List.intercalate [',']
          (((t :: ts).reverse).map (fun tok => field ++ tok))) := by
  have hr : r ≠ [] := by
    rintro rfl
    rw [tokenize_nil] at htok
    exact List.noConfusion htok
  rw [ads_build_path_tok_cons _ _ _ _ _ _ hr htok, path_step_true, build_join_rev_eq]

/-- Witness for claim C6 at name "a.b.c": the result is
"dc=c,dc=b,dc=a". -/
theorem claim_C6_witness :
    tokenize (".".toList) ("a.b.c".toList) = ["a".toList, "b".toList, "c".toList] ∧
    ads_build_path (some ("a.b.c".toList)) (".".toList) ("dc=".toList) true
      = some ("dc=c,dc=b,dc=a".toList) := by
  refine ⟨by decide, ?_⟩
  have h := claim_C6_reverse_order (".".toList) ("dc=".toList) ("a.b.c".toList)
    ("a".toList) [("b".toList), ("c".toList)] (by decide)
  rw [h]
  decide

/-! ### Claims about the connection context lifecycle -/

/-- Claim C2 fails as stated: destroying a non-null reference to a
non-null context whose is_mine flag is clear leaves the reference
pointing at the zeroed storage instead of setting it to null, because
only the SAFE_FREE of the owned storage nulls the pointer. -/
theorem claim_C2_counterexample :
    ads_destroy (some (some { zeroADS with auth := { zeroAuth with flags := 7 } }))
        = some (some zeroADS) ∧
    (some (some zeroADS) : Option (Option ADS_STRUCT)) ≠ some none := by
  constructor
  · decide
  · decide

/-- Claim C2 (amended): for every context whose is_mine flag is set, as
every context produced by ads_init is, ads_destroy sets the caller
reference to null, so a second call through the same reference takes
the documented no-op branch, as does a call on a null reference. -/
theorem claim_C2_destroy_nulls_owned (a : ADS_STRUCT) (h : a.is_mine = true) :
    ads_destroy (some (some a)) = some none ∧
    ads_destroy (some none) = some none ∧
    ads_destroy none = none := by
  refine ⟨?_, rfl, rfl⟩
  simp [ads_destroy, h]

/-- Witness for the amended claim C2 at a context built by ads_init. -/
theorem claim_C2_witness :
    (ads_init none none none .ADS_SASL_PLAIN none 0).is_mine = true ∧
    (ads_destroy (some (some (ads_init none none none .ADS_SASL_PLAIN none 0)))
        = some none ∧
      ads_destroy (some none) = some none ∧
      ads_destroy none = none) :=
  ⟨by decide, claim_C2_destroy_nulls_owned _ (by decide)⟩

lemma mask_testBit (i : Nat) :
    (UINT32_MASK ^^^ (ADS_AUTH_SASL_SIGN ||| ADS_AUTH_SASL_SEAL)).testBit i
      = (decide (i < 32) && !(decide (i = 5) || decide (i = 6))) := by
  have h32 : ADS_AUTH_SASL_SIGN = 2 ^ 5 := by norm_num [ADS_AUTH_SASL_SIGN]
  have h64 : ADS_AUTH_SASL_SEAL = 2 ^ 6 := by norm_num [ADS_AUTH_SASL_SEAL]
  rw [UINT32_MASK, h32, h64, Nat.testBit_xor, Nat.testBit_or,
    Nat.testBit_two_pow_sub_one, Nat.testBit_two_pow, Nat.testBit_two_pow]
  by_cases h5 : i = 5
  · subst h5; decide
  · by_cases h6 : i = 6
    · subst h6; decide
    · by_cases hi : i < 32
      · simp [hi, h5, h6, show (5 : Nat) ≠ i from fun h => h5 h.symm,
          show (6 : Nat) ≠ i from fun h => h6 h.symm]
      · simp [hi, show (5 : Nat) ≠ i from fun h => h5 h.symm,
          show (6 : Nat) ≠ i from fun h => h6 h.symm]

/-- Claim C3: ads_set_sasl_wrap_flags on a non-null context whose flag
word fits the C unsigned range replaces the flag word by new_flags OR
the previous word with exactly the require-signing and require-sealing
bits cleared, preserving every other bit and every other field; it
returns false exactly on a null context, which it leaves unchanged. -/
theorem claim_C3_set_sasl_wrap_flags (a : ADS_STRUCT) (nf : Nat)
    (hword : a.auth.flags < 2 ^ 32) :
    (ads_set_sasl_wrap_flags (some a) nf).1 = true ∧
    (∀ f, ads_set_sasl_wrap_flags none f = (false, none)) ∧
    ∃ a2, (ads_set_sasl_wrap_flags (some a) nf).2 = some a2 ∧
      a2.auth.flags
        = nf ||| (a.auth.flags &&&
            (UINT32_MASK ^^^ (ADS_AUTH_SASL_SIGN ||| ADS_AUTH_SASL_SEAL))) ∧
      (∀ i, i ≠ 5 → i ≠ 6 →
        a2.auth.flags.testBit i = (nf.testBit i || a.auth.flags.testBit i)) ∧
      a2.auth.flags.testBit 5 = nf.testBit 5 ∧
      a2.auth.flags.testBit 6 = nf.testBit 6 ∧
      a2.server = a.server ∧ a2.config = a.config ∧ a2.is_mine = a.is_mine := by
  refine ⟨rfl, fun f => rfl, _, rfl, rfl, ?_, ?_, ?_, rfl, rfl, rfl⟩
  · intro i h5 h6
    show (nf ||| (a.auth.flags &&&
        (UINT32_MASK ^^^ (ADS_AUTH_SASL_SIGN ||| ADS_AUTH_SASL_SEAL)))).testBit i = _
    rw [Nat.testBit_or, Nat.testBit_and, mask_testBit]
    by_cases hi : i < 32
    · simp [hi, h5, h6]
    · have hF : a.auth.flags.testBit i = false := by
        apply Nat.testBit_eq_false_of_lt
        calc a.auth.flags < 2 ^ 32 := hword
          _ ≤ 2 ^ i := Nat.pow_le_pow_right (by norm_num) (by omega)
      simp [hi, hF]
  · show (nf ||| (a.auth.flags &&&
        (UINT32_MASK ^^^ (ADS_AUTH_SASL_SIGN ||| ADS_AUTH_SASL_SEAL)))).testBit 5
      = nf.testBit 5
    rw [Nat.testBit_or, Nat.testBit_and, mask_testBit]
    simp
  · show (nf ||| (a.auth.flags &&&
        (UINT32_MASK ^^^ (ADS_AUTH_SASL_SIGN ||| ADS_AUTH_SASL_SEAL)))).testBit 6
      = nf.testBit 6
    rw [Nat.testBit_or, Nat.testBit_and, mask_testBit]
    simp

/-- Witness for claim C3: the context produced by ads_init with the
Seal state over base policy flags 16, updated with the signing bit. -/
theorem claim_C3_witness :
    (ads_init none none none .ADS_SASL_SEAL (some 16) 0).auth.flags < 2 ^ 32 ∧
    ((ads_set_sasl_wrap_flags
        (some (ads_init none none none .ADS_SASL_SEAL (some 16) 0)) 32).1 = true ∧
     (∀ f, ads_set_sasl_wrap_flags none f = (false, none)) ∧
     ∃ a2, (ads_set_sasl_wrap_flags
          (some (ads_init none none none .ADS_SASL_SEAL (some 16) 0)) 32).2 = some a2 ∧
       a2.auth.flags
         = 32 ||| ((ads_init none none none .ADS_SASL_SEAL (some 16) 0).auth.flags &&&
             (UINT32_MASK ^^^ (ADS_AUTH_SASL_SIGN ||| ADS_AUTH_SASL_SEAL))) ∧
       (∀ i, i ≠ 5 → i ≠ 6 →
         a2.auth.flags.testBit i
           = ((32 : Nat).testBit i
              || (ads_init none none none .ADS_SASL_SEAL (some 16) 0).auth.flags.testBit i)) ∧
       a2.auth.flags.testBit 5 = (32 : Nat).testBit 5 ∧
       a2.auth.flags.testBit 6 = (32 : Nat).testBit 6 ∧
       a2.server = (ads_init none none none .ADS_SASL_SEAL (some 16) 0).server ∧
       a2.config = (ads_init none none none .ADS_SASL_SEAL (some 16) 0).config ∧
       a2.is_mine = (ads_init none none none .ADS_SASL_SEAL (some 16) 0).is_mine) :=
  ⟨by decide,
    claim_C3_set_sasl_wrap_flags (ads_init none none none .ADS_SASL_SEAL (some 16) 0)
      32 (by decide)⟩

/-- Claim C8: ads_init resolves the base wrap-flag bitset from the
policy collaborator and ORs onto it nothing for the plain state, the
require-signing bit for the sign state and the require-sealing bit for
the seal state; when the policy reports an error the base defaults to
the empty bitset, the same flags as a successful empty policy result. -/
theorem claim_C8_init_flags (realm workgroup ldap_server : Option CStr)
    (w : Nat) (ps : Int) :
    (ads_init realm workgroup ldap_server .ADS_SASL_PLAIN (some w) ps).auth.flags = w ∧
    (ads_init realm workgroup ldap_server .ADS_SASL_SIGN (some w) ps).auth.flags
      = w ||| ADS_AUTH_SASL_SIGN ∧
    (ads_init realm workgroup ldap_server .ADS_SASL_SEAL (some w) ps).auth.flags
      = w ||| ADS_AUTH_SASL_SEAL ∧
    (∀ s : ads_sasl_state_e,
      (ads_init realm workgroup ldap_server s none ps).auth.flags
        = (ads_init realm workgroup ldap_server s (some 0) ps).auth.flags) := by
  refine ⟨rfl, rfl, rfl, fun s => ?_⟩
  cases s <;> rfl

/-! ### Claims about ads_build_domain -/

lemma dc_toList : ("dc=".toList : CStr) = ['d', 'c', '='] := rfl

lemma comma_toList : (",".toList : CStr) = [','] := rfl

lemma dot_toList : (".".toList : CStr) = ['.'] := rfl

lemma comma_sub_eq_map (s : CStr) :
    all_string_sub [','] ['.'] s = s.map (fun c => if c = ',' then '.' else c) := by
  induction s with
  | nil => simp [all_string_sub]
  | cons c cs ih =>
    simp only [all_string_sub]
    by_cases hc : c = ','
    · subst hc
      rw [if_pos ⟨by simp, ⟨cs, rfl⟩⟩]
      simp [ih]
    · rw [if_neg]
      · simp [ih, hc]
      · rintro ⟨-, u, hu⟩
        injection hu with h1 h2
        exact hc h1.symm

/-- Claim C7: for every string, ads_build_domain returns (never an
error) the input lower-cased, with every left-to-right occurrence of
the literal "dc=" removed and then every comma mapped to a period. -/
theorem claim_C7_build_domain (s : CStr) :
    ads_build_domain (some s)
      = some ((all_string_sub ("dc=".toList) [] (s.map Char.toLower)).map
          (fun c => if c = ',' then '.' else c)) := by
  simp only [ads_build_domain, strlower_m, comma_toList, dot_toList]
  rw [comma_sub_eq_map]

/-! ### The round-trip over realm strings -/

lemma sepMatch_dot_eq : sepMatch (".".toList) = fun c => c == '.' := by
  funext c
  cases h : c == '.'
  · have hne : c ≠ '.' := ne_of_beq_false h
    simp [sepMatch, dot_toList, hne]
  · have heq : c = '.' := eq_of_beq h
    simp [sepMatch, dot_toList, heq]

lemma splitOnP_sepMatch_dot (r : CStr) :
    r.splitOnP (sepMatch (".".toList)) = r.splitOn '.' := by
  rw [sepMatch_dot_eq]
  rfl

lemma toLower_realmChar (c : Char) (h : isRealmChar c = true) :
    Char.toLower c = c := by
  simp only [isRealmChar, Bool.or_eq_true, Bool.and_eq_true, decide_eq_true_eq] at h
  have hn : ¬ (Char.toNat c ≥ 65 ∧ Char.toNat c ≤ 90) := by omega
  simp [Char.toLower, hn]

lemma realmChar_ne (c : Char) (h : isRealmChar c = true) :
    c ≠ '=' ∧ c ≠ ',' := by
  constructor <;> rintro rfl <;> exact absurd h (by decide)

lemma inter_flat_c (a : Char) (x : CStr) (ls : List CStr) :
    List.intercalate [a] (x :: ls) = x ++ (ls.map (fun l => a :: l)).flatten := by
  induction ls generalizing x with
  | nil => simp [intercalate_singleton_local]
  | cons y ys ih =>
    rw [intercalate_cons2, ih y]
    simp [List.append_assoc]

lemma sub_dc_token (t : CStr) :
    ∀ rest : CStr, (∀ c ∈ t, c ≠ '=') → (rest = [] ∨ ∃ rs, rest = ',' :: rs) →
      all_string_sub ['d', 'c', '='] [] (t ++ rest)
        = t ++ all_string_sub ['d', 'c', '='] [] rest := by
  induction t with
  | nil => intro rest _ _; simp
  | cons c t' ih =>
    intro rest hno hrest
    have hnotpre :
        ¬ ((['d', 'c', '='] : CStr) ≠ [] ∧
            (['d', 'c', '='] : CStr) <+: (c :: (t' ++ rest))) := by
      rintro ⟨-, u, hu⟩
      simp only [List.cons_append, List.nil_append] at hu
      injection hu with h1 h2
      rcases t' with _ | ⟨a, t''⟩
      · rcases hrest with hre | ⟨rs, hre⟩
        · rw [List.nil_append, hre] at h2
          exact List.noConfusion h2
        · rw [List.nil_append, hre] at h2
          injection h2 with h3 _
          exact absurd h3 (by decide)
      · rcases t'' with _ | ⟨b, t3⟩
        · simp only [List.cons_append, List.nil_append] at h2
          injection h2 with h3 h4
          rcases hrest with hre | ⟨rs, hre⟩
          · rw [hre] at h4
            exact List.noConfusion h4
          · rw [hre] at h4
            injection h4 with h5 _
            exact absurd h5 (by decide)
        · simp only [List.cons_append] at h2
          injection h2 with h3 h4
          injection h4 with h5 h6
          exact hno b (by simp) h5.symm
    simp only [List.cons_append, all_string_sub]
    rw [if_neg hnotpre,
      ih rest (fun d hd => hno d (List.mem_cons_of_mem _ hd)) hrest]

lemma sub_dc_comma (rest : CStr) :
    all_string_sub ['d', 'c', '='] [] (',' :: rest)
      = ',' :: all_string_sub ['d', 'c', '='] [] rest := by
  have hnot :
      ¬ ((['d', 'c', '='] : CStr) ≠ [] ∧
          (['d', 'c', '='] : CStr) <+: (',' :: rest)) := by
    rintro ⟨-, u, hu⟩
    simp only [List.cons_append, List.nil_append] at hu
    injection hu with h1 _
    exact absurd h1 (by decide)
  simp only [all_string_sub]
  rw [if_neg hnot]

lemma sub_dc_head (rest : CStr) :
    all_string_sub ['d', 'c', '='] [] (['d', 'c', '='] ++ rest)
      = all_string_sub ['d', 'c', '='] [] rest := by
  simp only [List.cons_append, List.nil_append, all_string_sub]
  rw [if_pos ⟨by simp, ⟨rest, rfl⟩⟩]
  simp

lemma remove_dc_join :
    ∀ (ps : List CStr) (p : CStr),
      (∀ c ∈ p, c ≠ '=') → (∀ t ∈ ps, ∀ c ∈ t, c ≠ '=') →
      all_string_sub ['d', 'c', '='] []
          ((['d', 'c', '='] ++ p)
            ++ (ps.map (fun t => ',' :: (['d', 'c', '='] ++ t))).flatten)
        = p ++ (ps.map (fun t => ',' :: t)).flatten := by
  intro ps
  induction ps with
  | nil =>
    intro p hp _
    simp only [List.map_nil, List.flatten_nil, List.append_nil]
    rw [sub_dc_head]
    have h := sub_dc_token p [] hp (Or.inl rfl)
    simpa [all_string_sub] using h
  | cons t ps' ih =>
    intro p hp hts
    rw [List.map_cons, List.flatten_cons]
    have hassoc :
        ((['d', 'c', '='] ++ p)
            ++ ((',' :: (['d', 'c', '='] ++ t))
              ++ (ps'.map (fun t => ',' :: (['d', 'c', '='] ++ t))).flatten))
          = ['d', 'c', '=']
              ++ (p ++ (',' :: ((['d', 'c', '='] ++ t)
                ++ (ps'.map (fun t => ',' :: (['d', 'c', '='] ++ t))).flatten))) := by
      simp [List.append_assoc]
    rw [hassoc, sub_dc_head,
      sub_dc_token p _ hp (Or.inr ⟨_, rfl⟩), sub_dc_comma,
      ih t (hts t (List.mem_cons_self _ _))
        (fun u hu => hts u (List.mem_cons_of_mem _ hu))]
    simp [List.append_assoc]

lemma map_toLower_dn (p : CStr) (ps : List CStr)
    (hp : ∀ c ∈ p, isRealmChar c = true)
    (hps : ∀ t ∈ ps, ∀ c ∈ t, isRealmChar c = true) :
    ((['d', 'c', '='] ++ p)
        ++ (ps.map (fun t => ',' :: (['d', 'c', '='] ++ t))).flatten).map Char.toLower
      = (['d', 'c', '='] ++ p)
        ++ (ps.map (fun t => ',' :: (['d', 'c', '='] ++ t))).flatten := by
  have hfix : ∀ c ∈ (['d', 'c', '='] ++ p)
      ++ (ps.map (fun t => ',' :: (['d', 'c', '='] ++ t))).flatten,
      Char.toLower c = c := by
    intro c hc
    rcases List.mem_append.mp hc with h1 | h2
    · rcases List.mem_append.mp h1 with h3 | h4
      · have h3' : c = 'd' ∨ c = 'c' ∨ c = '=' := by simpa using h3
        rcases h3' with rfl | rfl | rfl <;> decide
      · exact toLower_realmChar c (hp c h4)
    · rcases List.mem_flatten.mp h2 with ⟨l, hl, hcl⟩
      rcases List.mem_map.mp hl with ⟨t, ht, rfl⟩
      rcases List.mem_cons.mp hcl with rfl | h5
      · decide
      · rcases List.mem_append.mp h5 with h6 | h7
        · have h6' : c = 'd' ∨ c = 'c' ∨ c = '=' := by simpa using h6
          rcases h6' with rfl | rfl | rfl <;> decide
        · exact toLower_realmChar c (hps t ht c h7)
  calc ((['d', 'c', '='] ++ p)
      ++ (ps.map (fun t => ',' :: (['d', 'c', '='] ++ t))).flatten).map Char.toLower
      = ((['d', 'c', '='] ++ p)
        ++ (ps.map (fun t => ',' :: (['d', 'c', '='] ++ t))).flatten).map id :=
        List.map_congr_left hfix
    _ = _ := List.map_id _

lemma map_comma_join :
    ∀ (ps : List CStr) (p : CStr),
      (∀ c ∈ p, c ≠ ',') → (∀ t ∈ ps, ∀ c ∈ t, c ≠ ',') →
      (p ++ (ps.map (fun t => ',' :: t)).flatten).map
          (fun c => if c = ',' then '.' else c)
        = p ++ (ps.map (fun t => '.' :: t)).flatten := by
  intro ps
  induction ps with
  | nil =>
    intro p hp _
    simp only [List.map_nil, List.flatten_nil, List.append_nil]
    have hfix : ∀ c ∈ p, (if c = ',' then '.' else c) = c :=
      fun c hc => if_neg (hp c hc)
    calc p.map (fun c => if c = ',' then '.' else c) = p.map id :=
          List.map_congr_left hfix
      _ = p := List.map_id _
  | cons t ps' ih =>
    intro p hp hts
    rw [List.map_cons, List.flatten_cons, List.map_cons, List.flatten_cons]
    have hassoc : (p ++ ((',' :: t) ++ (ps'.map (fun t => ',' :: t)).flatten))
        = p ++ (',' :: (t ++ (ps'.map (fun t => ',' :: t)).flatten)) := by
      simp
    rw [hassoc, List.map_append, List.map_cons]
    have hfix : ∀ c ∈ p, (if c = ',' then '.' else c) = c :=
      fun c hc => if_neg (hp c hc)
    have hmp : p.map (fun c => if c = ',' then '.' else c) = p := by
      calc p.map (fun c => if c = ',' then '.' else c) = p.map id :=
            List.map_congr_left hfix
        _ = p := List.map_id _
    rw [hmp, if_pos rfl,
      ih t (hts t (List.mem_cons_self _ _))
        (fun u hu => hts u (List.mem_cons_of_mem _ hu))]
    simp [List.append_assoc]

/-- Claim C1: for every realm string matching the regex
[a-z0-9]+(\.[a-z0-9]+)*, applying ads_build_domain to the DN built by
ads_build_dn returns the realm itself. -/
theorem claim_C1_round_trip (r : CStr) (h : matchesRealm r = true) :
    ads_build_domain (ads_build_dn (some r)) = some r := by
  have hr : r ≠ [] := by
    rintro rfl
    exact absurd h (by decide)
  rcases hp : r.splitOn '.' with _ | ⟨p, ps⟩
  · have hne := List.splitOnP_ne_nil (fun c => c == '.') r
    exact absurd hp hne
  have hall : ∀ t ∈ p :: ps, t ≠ [] ∧ ∀ c ∈ t, isRealmChar c = true := by
    rw [matchesRealm, hp, List.all_eq_true] at h
    intro t ht
    have h2 := h t ht
    rw [Bool.and_eq_true] at h2
    constructor
    · intro hnil
      rw [hnil] at h2
      exact absurd h2.1 (by decide)
    · rw [List.all_eq_true] at h2
      exact fun c hc => h2.2 c hc
  have hclass_p : ∀ c ∈ p, isRealmChar c = true :=
    (hall p (List.mem_cons_self _ _)).2
  have hclass_ps : ∀ t ∈ ps, ∀ c ∈ t, isRealmChar c = true :=
    fun t ht => (hall t (List.mem_cons_of_mem _ ht)).2
  have htok : tokenize (".".toList) r = p :: ps := by
    rw [tokenize, splitOnP_sepMatch_dot, hp, List.filter_eq_self.mpr]
    intro t ht
    have h1 := (hall t ht).1
    cases hE : t.isEmpty
    · rfl
    · exact absurd (List.isEmpty_iff.mp hE) h1
  have hdn := ads_build_path_tok_cons (".".toList) ("dc=".toList) r p ps false hr htok
  rw [ads_build_dn, hdn, path_step_false, build_join_eq]
  simp only [ads_build_domain, strlower_m, comma_toList, dot_toList, dc_toList]
  rw [List.map_cons, inter_flat_c, List.map_map]
  have hcomp : ((fun l => ',' :: l) ∘ fun tok => ['d', 'c', '='] ++ tok)
      = fun t => ',' :: (['d', 'c', '='] ++ t) := by
    funext t
    simp [Function.comp]
  rw [hcomp, map_toLower_dn p ps hclass_p hclass_ps,
    remove_dc_join ps p (fun c hc => (realmChar_ne c (hclass_p c hc)).1)
      (fun t ht c hc => (realmChar_ne c (hclass_ps t ht c hc)).1),
    comma_sub_eq_map,
    map_comma_join ps p (fun c hc => (realmChar_ne c (hclass_p c hc)).2)
      (fun t ht c hc => (realmChar_ne c (hclass_ps t ht c hc)).2)]
  have hre : List.intercalate ['.'] (p :: ps) = r := by
    have h3 := List.intercalate_splitOn r '.'
    rw [hp] at h3
    exact h3
  rw [inter_flat_c] at hre
  rw [hre]

/-- Witness for claim C1 at realm "example.com". -/
theorem claim_C1_witness :
    matchesRealm ("example.com".toList) = true ∧
    ads_build_domain (ads_build_dn (some ("example.com".toList)))
      = some ("example.com".toList) :=
  ⟨by decide, claim_C1_round_trip ("example.com".toList) (by decide)⟩
